import Mathlib

/-!
Verification development for the scoringrules estimator engine.

The array model is a rank-2 shallow embedding: a batch of observations is a
`List ℚ` and an ensemble / quantile forecast array is a `List (List ℚ)` whose
rows are batch elements and whose last axis is the ensemble (resp. quantile)
axis once the dispatcher has moved the designated axis to the back.  Exact
arithmetic is modelled with `ℚ` for the ensemble estimators (which only use
field operations, absolute values and sorting) and with `ℝ` for the
closed-form distributional scorers (which need `exp`, `log` and the normal
CDF).  Python `ValueError` is modelled as `Except.error`.
-/

open scoped BigOperators

/-- Valid estimator identifiers: the keys of the estimator table
`scoringrules.core.crps.estimator_gufuncs`.  Modelled from the spec:
the closed set for `crps_ensemble`/`twcrps_ensemble` is
nrg, fair, pwm, int, qd, akr, akr_circperm. -/
def estimatorNames : List String :=
  ["nrg", "fair", "pwm", "int", "qd", "akr", "akr_circperm"]

/-- Estimators that `crps_ensemble` does not pre-sort for
(`_crps.py` line 61). -/
def noSortEstimators : List String := ["nrg", "akr", "akr_circperm", "fair"]

/-- Rank-2 model of `B.moveaxis(forecasts, axis, -1)` guarded by
`if axis != -1` (`_crps.py` lines 58-59): the ensemble axis is either already
last (`axis = -1`, identity) or it is the leading axis and the move is a
transpose. -/
def moveaxisLast (axis : Int) (a : List (List ℚ)) : List (List ℚ) :=
  if axis = -1 then a else a.transpose

/-- Ascending stable sort of one ensemble row, the model of
`B.sort(forecasts, axis=-1)`. -/
def sortRow (xs : List ℚ) : List ℚ := List.insertionSort (· ≤ ·) xs

/-- Modelled from the spec: the energy-form estimator of
`scoringrules.core.crps` (missing from src/),
`(1/M) Σ_m |x_m - y| - (1/(2 M^2)) Σ_m Σ_j |x_m - x_j|`. -/
def nrgScore (y : ℚ) (xs : List ℚ) : ℚ :=
  (∑ i ∈ Finset.range xs.length, |xs.getD i 0 - y|) / (xs.length : ℚ) -
    (∑ i ∈ Finset.range xs.length, ∑ j ∈ Finset.range xs.length,
      |xs.getD i 0 - xs.getD j 0|) / (2 * (xs.length : ℚ) ^ 2)

/-- Modelled from the spec: the fair (unbiased) estimator of
`scoringrules.core.crps` (missing from src/): the energy form with the
pairwise term divided by `2 M (M - 1)` instead of `2 M^2`. -/
def fairScore (y : ℚ) (xs : List ℚ) : ℚ :=
  (∑ i ∈ Finset.range xs.length, |xs.getD i 0 - y|) / (xs.length : ℚ) -
    (∑ i ∈ Finset.range xs.length, ∑ j ∈ Finset.range xs.length,
      |xs.getD i 0 - xs.getD j 0|) /
      (2 * (xs.length : ℚ) * ((xs.length : ℚ) - 1))

/-- Modelled from the spec: the probability-weighted-moment estimator of
`scoringrules.core.crps` (missing from src/): the mean absolute deviation to
`y` combined with the order-statistics term with coefficients `2i - M - 1`
(1-based `i`, here `2 i + 1 - M` for the 0-based index), normalised by
`M (M - 1)` so that the term equals the unbiased pairwise spread
`beta0 - 2 beta1` of the probability-weighted moments. -/
def pwmScore (y : ℚ) (xs : List ℚ) : ℚ :=
  (∑ i ∈ Finset.range xs.length, |xs.getD i 0 - y|) / (xs.length : ℚ) -
    (∑ i ∈ Finset.range xs.length,
        ((2 * i + 1 : ℚ) - (xs.length : ℚ)) * xs.getD i 0) /
      ((xs.length : ℚ) * ((xs.length : ℚ) - 1))

/-- Pinball loss at level `q` for a single quantile forecast `f`
(spec 4.4): `q (y - f)` if `y ≥ f`, else `(1 - q) (f - y)`. -/
def pinball (y f q : ℚ) : ℚ := if f ≤ y then q * (y - f) else (1 - q) * (f - y)

/-- Modelled from the spec: the quantile-decomposition estimator of
`scoringrules.core.crps` (missing from src/): each order statistic is an
empirical quantile at level `(i - 0.5)/M` (1-based) and the pinball losses
are summed and averaged with the `2/M` factor of spec 4.4. -/
def qdScore (y : ℚ) (xs : List ℚ) : ℚ :=
  (2 / (xs.length : ℚ)) *
    ∑ i ∈ Finset.range xs.length,
      pinball y (xs.getD i 0) (((i : ℚ) + 1 / 2) / (xs.length : ℚ))

/-- Empirical CDF of the ensemble at `t`. -/
def ecdf (xs : List ℚ) (t : ℚ) : ℚ :=
  (xs.countP (fun b => decide (b ≤ t)) : ℚ) / (xs.length : ℚ)

/-- Modelled from the spec: the integral-form estimator of
`scoringrules.core.crps` (missing from src/): the CRPS integral
`∫ (F_ens(t) - 1(y ≤ t))^2 dt` summed over the intervals between consecutive
points of the sorted grid obtained by inserting `y` into the (pre-sorted)
ensemble; on each such interval the squared empirical-CDF-vs-indicator gap is
constant, so the summation is exact. -/
def intScore (y : ℚ) (xs : List ℚ) : ℚ :=
  let zs := List.orderedInsert (· ≤ ·) y xs
  ((zs.zip zs.tail).map
    (fun p => (p.2 - p.1) * (ecdf xs p.1 - (if y ≤ p.1 then 1 else 0)) ^ 2)).sum

/-- Modelled from the spec: the asymmetric-kernel estimators of
`scoringrules.core.crps` (missing from src/): the mean absolute deviation to
`y`, minus the inter-ensemble term computed from one circular permutation
(a cyclic shift by `k`) of the ensemble axis instead of the full pairwise
sum, normalised by `2 M`. -/
def akrScore (k : ℕ) (y : ℚ) (xs : List ℚ) : ℚ :=
  (∑ i ∈ Finset.range xs.length, |xs.getD i 0 - y|) / (xs.length : ℚ) -
    (List.zipWith (fun a b => |a - b|) xs (xs.rotate k)).sum /
      (2 * (xs.length : ℚ))

/-- Scalar kernel dispatch on the estimator identifier; the argument order
matches the gufunc signature (observation, forecast row).  Rows reaching the
sort-dependent kernels have been sorted by the dispatcher unless the caller
asserted pre-sortedness. -/
def ensScore (estimator : String) (y : ℚ) (xs : List ℚ) : ℚ :=
  match estimator with
  | "nrg" => nrgScore y xs
  | "fair" => fairScore y xs
  | "pwm" => pwmScore y xs
  | "int" => intScore y xs
  | "qd" => qdScore y xs
  | "akr" => akrScore 1 y xs
  | "akr_circperm" => akrScore (xs.length / 2) y xs
  | _ => 0

/-- Model of `crps_ensemble` (`_crps.py` lines 10-67): validate the estimator
identifier against the estimator table, move the ensemble axis last, sort
unless the ensemble is declared sorted or the estimator is sort-independent,
then apply the scalar kernel across the batch. -/
def crps_ensemble (observations : List ℚ) (forecasts : List (List ℚ))
    (axis : Int) (sorted_ensemble : Bool) (estimator : String) :
    Except String (List ℚ) :=
  if estimator ∉ estimatorNames then
    Except.error "is not a valid estimator"
  else
    Except.ok (List.zipWith (ensScore estimator) observations
      (if ¬ sorted_ensemble ∧ estimator ∉ noSortEstimators then
        (moveaxisLast axis forecasts).map sortRow
      else moveaxisLast axis forecasts))

/-- Model of `twcrps_ensemble` (`_crps.py` lines 70-126): apply the chaining
function elementwise to observations and forecasts, then delegate to
`crps_ensemble` with the same axis, sortedness flag and estimator. -/
def twcrps_ensemble (observations : List ℚ) (forecasts : List (List ℚ))
    (v_func : ℚ → ℚ) (axis : Int) (sorted_ensemble : Bool)
    (estimator : String) : Except String (List ℚ) :=
  crps_ensemble (observations.map v_func) (forecasts.map (List.map v_func))
    axis sorted_ensemble estimator

/-- Length of the last axis of a rank-2 array (`forecasts.shape[-1]`);
meaningful under the rectangularity hypothesis that all rows have equal
length. -/
def lastDim (a : List (List ℚ)) : ℕ := (a.headD []).length

/-- Modelled from the spec: the pinball-loss kernel of
`scoringrules.core.crps.quantile_pinball` (missing from src/),
`(2/|Q|) Σ_q PB_q` over the level/forecast pairs. -/
def quantilePinball (y : ℚ) (row alpha : List ℚ) : ℚ :=
  (2 / (alpha.length : ℚ)) *
    (List.zipWith (fun f q => pinball y f q) row alpha).sum

/-- Model of `crps_quantile` (`_crps.py` lines 129-190): move the quantile
axis last, fail if its length differs from the length of `alpha`, else apply
the pinball kernel across the batch. -/
def crps_quantile (observations : List ℚ) (forecasts : List (List ℚ))
    (alpha : List ℚ) (axis : Int) : Except String (List ℚ) :=
  if lastDim (moveaxisLast axis forecasts) ≠ alpha.length then
    Except.error "Expected matching length of forecasts and alpha values."
  else
    Except.ok (List.zipWith (fun y row => quantilePinball y row alpha)
      observations (moveaxisLast axis forecasts))

/-- Modelled from the spec: the outcome-weighted energy-form kernel of
`scoringrules.core.crps.ow_ensemble` (missing from src/), spec 4.4. -/
def owScore (y : ℚ) (xs : List ℚ) (wy : ℚ) (wxs : List ℚ) : ℚ :=
  let M : ℚ := (xs.length : ℚ)
  let wbar : ℚ := wxs.sum / M
  (∑ i ∈ Finset.range xs.length,
      |xs.getD i 0 - y| * wxs.getD i 0 * wy) / (M * wbar) -
    (∑ i ∈ Finset.range xs.length, ∑ j ∈ Finset.range xs.length,
        |xs.getD i 0 - xs.getD j 0| * wxs.getD i 0 * wxs.getD j 0 * wy) /
      (2 * M ^ 2 * wbar ^ 2)

/-- Modelled from the spec: the vertically re-scaled energy-form kernel of
`scoringrules.core.crps.vr_ensemble` (missing from src/), spec 4.4. -/
def vrScore (y : ℚ) (xs : List ℚ) (wy : ℚ) (wxs : List ℚ) : ℚ :=
  let M : ℚ := (xs.length : ℚ)
  (∑ i ∈ Finset.range xs.length,
      |xs.getD i 0 - y| * wxs.getD i 0 * wy) / M -
    (∑ i ∈ Finset.range xs.length, ∑ j ∈ Finset.range xs.length,
        |xs.getD i 0 - xs.getD j 0| * wxs.getD i 0 * wxs.getD j 0) /
      (2 * M ^ 2) +
    ((∑ i ∈ Finset.range xs.length, |xs.getD i 0| * wxs.getD i 0) / M -
        |y| * wy) *
      ((∑ i ∈ Finset.range xs.length, wxs.getD i 0) / M - wy)

/-- Model of `owcrps_ensemble` (`_crps.py` lines 193-260): reject any
estimator other than the energy form before the weight function is applied,
else move the ensemble axis last, weight observations and members with
`w_func`, and apply the outcome-weighted kernel across the batch. -/
def owcrps_ensemble (observations : List ℚ) (forecasts : List (List ℚ))
    (w_func : ℚ → ℚ) (axis : Int) (estimator : String) :
    Except String (List ℚ) :=
  if estimator ≠ "nrg" then
    Except.error
      "Only the energy form of the estimator is available for the outcome-weighted CRPS."
  else
    let fct := moveaxisLast axis forecasts
    Except.ok (List.zipWith
      (fun y row => owScore y row (w_func y) (row.map w_func))
      observations fct)

/-- IEEE-style scalar for the Brier score: either a numeric value (exact
arithmetic, modelled by `ℚ`) or NaN.  Comparisons with NaN are false and
arithmetic with NaN propagates NaN, as in IEEE 754. -/
inductive FloatVal where
  | num : ℚ → FloatVal
  | nan : FloatVal
deriving DecidableEq, Repr

/-- IEEE strict less-than: false whenever either side is NaN. -/
def FloatVal.lt : FloatVal → FloatVal → Bool
  | FloatVal.num a, FloatVal.num b => decide (a < b)
  | _, _ => false

/-- IEEE subtraction: NaN propagates. -/
def FloatVal.sub : FloatVal → FloatVal → FloatVal
  | FloatVal.num a, FloatVal.num b => FloatVal.num (a - b)
  | _, _ => FloatVal.nan

/-- IEEE squaring: NaN propagates. -/
def FloatVal.sq : FloatVal → FloatVal
  | FloatVal.num a => FloatVal.num (a ^ 2)
  | FloatVal.nan => FloatVal.nan

/-- Model of `np.isnan`. -/
def FloatVal.isnan : FloatVal → Bool
  | FloatVal.nan => true
  | _ => false

/-- The floating tolerance of `brier.py` line 4. -/
def EPSILON : ℚ := 1 / 10000000

/-- Model of `brier_score` (`brier.py` lines 7-38): reject forecasts with an
entry below 0 or above `1 + EPSILON` (IEEE comparisons, so NaN entries pass),
reject observations with a non-NaN entry other than 0 or 1, else return the
elementwise squared error. -/
def brier_score (forecasts observations : List FloatVal) :
    Except String (List FloatVal) :=
  if (forecasts.any (fun f => FloatVal.lt f (FloatVal.num 0))) ||
      (forecasts.any (fun f => FloatVal.lt (FloatVal.num (1 + EPSILON)) f)) then
    Except.error "Forecasted probabilities must be within 0 and 1."
  else if ¬ (observations.all (fun y =>
      y.isnan || y == FloatVal.num 0 || y == FloatVal.num 1)) then
    Except.error "Observations must be 0, 1, or NaN"
  else
    Except.ok (List.zipWith (fun f y => (f.sub y).sq) forecasts observations)

/-- Model of `vrcrps_ensemble` (`_crps.py` lines 263-335): reject any
estimator other than the energy form before the weight function is applied,
else move the ensemble axis last, weight observations and members with
`w_func`, and apply the vertically re-scaled kernel across the batch. -/
def vrcrps_ensemble (observations : List ℚ) (forecasts : List (List ℚ))
    (w_func : ℚ → ℚ) (axis : Int) (estimator : String) :
    Except String (List ℚ) :=
  if estimator ≠ "nrg" then
    Except.error
      "Only the energy form of the estimator is available for the outcome-weighted CRPS."
  else
    let fct := moveaxisLast axis forecasts
    Except.ok (List.zipWith
      (fun y row => vrScore y row (w_func y) (row.map w_func))
      observations fct)

noncomputable section

open Real

/-- Standard normal density `exp(-x^2/2) / sqrt(2 pi)`. -/
def stdnormPdf (x : ℝ) : ℝ := Real.exp (-(x ^ 2) / 2) / Real.sqrt (2 * π)

/-- Standard normal distribution function, the integral of the density over
`(-∞, x]`. -/
def stdnormCdf (x : ℝ) : ℝ := ∫ t in Set.Iic x, stdnormPdf t

/-- Modelled from the spec: `scoringrules.core.crps.normal` (missing from
src/), spec 4.2: `σ ( ω (2 Φ(ω) - 1) + 2 φ(ω) - 1/√π )` with
`ω = (y - μ)/σ`, and the σ = 0 edge case degenerating to `|y - μ|`. -/
def crps_normal (y mu sigma : ℝ) : ℝ :=
  if sigma = 0 then |y - mu|
  else
    let w := (y - mu) / sigma
    sigma * (w * (2 * stdnormCdf w - 1) + 2 * stdnormPdf w - 1 / Real.sqrt π)

/-- Modelled from the spec: `scoringrules.core.crps.lognormal` (missing from
src/), spec 4.2: `y (2 Φ(ω) - 1) - 2 exp(μ + σ²/2) (Φ(ω - σ) + Φ(σ/√2) - 1)`
with `ω = (log y - μ)/σ`, and the σ = 0 edge case degenerating to the
absolute distance to the point mass at `exp μ`. -/
def crps_lognormal (y mulog sigmalog : ℝ) : ℝ :=
  if sigmalog = 0 then |y - Real.exp mulog|
  else
    let w := (Real.log y - mulog) / sigmalog
    y * (2 * stdnormCdf w - 1) -
      2 * Real.exp (mulog + sigmalog ^ 2 / 2) *
        (stdnormCdf (w - sigmalog) + stdnormCdf (sigmalog / Real.sqrt 2) - 1)

/-- Standard logistic distribution function. -/
def stdlogisticCdf (x : ℝ) : ℝ := 1 / (1 + Real.exp (-x))

/-- Modelled from the spec: `scoringrules.core.crps.logistic` (missing from
src/), spec 4.2: `σ ( ω - 2 log F(ω) - 1 )` with `ω = (y - μ)/σ`, and the
σ = 0 edge case degenerating to `|y - μ|`. -/
def crps_logistic (y mu sigma : ℝ) : ℝ :=
  if sigma = 0 then |y - mu|
  else
    let w := (y - mu) / sigma
    sigma * (w - 2 * Real.log (stdlogisticCdf w) - 1)

/-- Exponential distribution function with rate `rate`. -/
def expCdf (rate y : ℝ) : ℝ := if y < 0 then 0 else 1 - Real.exp (-(rate * y))

/-- Modelled from the spec: `scoringrules.core.crps.exponential` (missing
from src/), spec 4.2: `|y| - 2 F_λ(y)/λ + 1/(2λ)`. -/
def crps_exponential (y rate : ℝ) : ℝ :=
  |y| - 2 * expCdf rate y / rate + 1 / (2 * rate)

end

/-- C2: `twcrps_ensemble` applied to observations `O`, forecasts `X`, an
elementwise chaining function `v`, and any axis, estimator and sortedness
flag, returns exactly `crps_ensemble` applied to the transformed values
`v(O)` and `v(X)` with the same axis, estimator and flag; in particular with
`v` the identity it coincides with `crps_ensemble` on the same inputs. -/
theorem C2_twcrps_delegates_to_crps :
    (∀ (observations : List ℚ) (forecasts : List (List ℚ)) (v_func : ℚ → ℚ)
        (axis : Int) (sorted_ensemble : Bool) (estimator : String),
      twcrps_ensemble observations forecasts v_func axis sorted_ensemble
          estimator =
        crps_ensemble (observations.map v_func)
          (forecasts.map (List.map v_func)) axis sorted_ensemble estimator) ∧
    (∀ (observations : List ℚ) (forecasts : List (List ℚ))
        (axis : Int) (sorted_ensemble : Bool) (estimator : String),
      twcrps_ensemble observations forecasts (fun x => x) axis
          sorted_ensemble estimator =
        crps_ensemble observations forecasts axis sorted_ensemble estimator) := by
  constructor
  · intro _ _ _ _ _ _
    rfl
  · intro observations forecasts axis sorted_ensemble estimator
    show crps_ensemble (observations.map (fun x => x))
        (forecasts.map (List.map (fun x => x))) _ _ _ = _
    simp [List.map_id']

/-- C3: `crps_ensemble` with an estimator identifier outside the closed set
nrg, fair, pwm, int, qd, akr, akr_circperm returns a configuration error and
no partial result, and with any identifier inside the set it returns a
result. -/
theorem C3_estimator_validation :
    ∀ (observations : List ℚ) (forecasts : List (List ℚ)) (axis : Int)
      (sorted_ensemble : Bool) (estimator : String),
      (estimator ∉ estimatorNames →
        crps_ensemble observations forecasts axis sorted_ensemble estimator =
          Except.error "is not a valid estimator") ∧
      (estimator ∈ estimatorNames →
        ∃ scores,
          crps_ensemble observations forecasts axis sorted_ensemble estimator =
            Except.ok scores) := by
  intro observations forecasts axis sorted_ensemble estimator
  constructor
  · intro h
    simp [crps_ensemble, h]
  · intro h
    unfold crps_ensemble
    rw [if_neg (not_not_intro h)]
    exact ⟨_, rfl⟩

/-- Witness for C3 at the concrete inputs of the spec scenario: the
identifier "bogus" is rejected while "nrg" is accepted. -/
theorem C3_estimator_validation_witness :
    ("bogus" ∉ estimatorNames ∧
      crps_ensemble [1] [[0, 2]] (-1) false "bogus" =
        Except.error "is not a valid estimator") ∧
    ("nrg" ∈ estimatorNames ∧
      ∃ scores,
        crps_ensemble [1] [[0, 2]] (-1) false "nrg" = Except.ok scores) :=
  ⟨⟨by decide,
      (C3_estimator_validation [1] [[0, 2]] (-1) false "bogus").1 (by decide)⟩,
    ⟨by decide,
      (C3_estimator_validation [1] [[0, 2]] (-1) false "nrg").2 (by decide)⟩⟩

/-- C4: for each sort-dependent estimator (pwm, int, qd), scoring an
unsorted ensemble with `sorted_ensemble = false` gives a result identical to
scoring the ensemble pre-sorted along the ensemble axis with
`sorted_ensemble = true`. -/
theorem C4_sort_invariance :
    ∀ (estimator : String), estimator ∈ ["pwm", "int", "qd"] →
      ∀ (observations : List ℚ) (forecasts : List (List ℚ)),
        crps_ensemble observations forecasts (-1) false estimator =
          crps_ensemble observations (forecasts.map sortRow) (-1) true
            estimator := by
  intro estimator h observations forecasts
  simp only [List.mem_cons, List.mem_singleton, List.not_mem_nil, or_false] at h
  rcases h with h | h | h <;> subst h <;> rfl

/-- Witness for C4: the pwm estimator on a concrete unsorted ensemble. -/
theorem C4_sort_invariance_witness :
    "pwm" ∈ ["pwm", "int", "qd"] ∧
      crps_ensemble [1] [[2, 0]] (-1) false "pwm" =
        crps_ensemble [1] ([[2, 0]].map sortRow) (-1) true "pwm" :=
  ⟨by decide, C4_sort_invariance "pwm" (by decide) [1] [[2, 0]]⟩

/-- C6: `owcrps_ensemble` and `vrcrps_ensemble` reject every estimator value
other than "nrg" with a configuration error whose value does not depend on
the weight function (so the weight function is never applied), and with
"nrg" both return a result. -/
theorem C6_owvr_estimator_validation :
    ∀ (observations : List ℚ) (forecasts : List (List ℚ)) (w_func : ℚ → ℚ)
      (axis : Int) (estimator : String),
      (estimator ≠ "nrg" →
        owcrps_ensemble observations forecasts w_func axis estimator =
            Except.error
              "Only the energy form of the estimator is available for the outcome-weighted CRPS." ∧
          vrcrps_ensemble observations forecasts w_func axis estimator =
            Except.error
              "Only the energy form of the estimator is available for the outcome-weighted CRPS.") ∧
      (estimator = "nrg" →
        (∃ r, owcrps_ensemble observations forecasts w_func axis estimator =
            Except.ok r) ∧
          ∃ r, vrcrps_ensemble observations forecasts w_func axis estimator =
            Except.ok r) := by
  intro observations forecasts w_func axis estimator
  constructor
  · intro h
    constructor <;> simp [owcrps_ensemble, vrcrps_ensemble, h]
  · intro h
    subst h
    exact ⟨⟨_, rfl⟩, ⟨_, rfl⟩⟩

/-- Witness for C6 at the concrete estimator "pwm" (rejected) and "nrg"
(accepted). -/
theorem C6_owvr_estimator_validation_witness :
    ("pwm" ≠ "nrg" ∧
      (owcrps_ensemble [1] [[0, 2]] (fun _ => 1) (-1) "pwm" =
          Except.error
            "Only the energy form of the estimator is available for the outcome-weighted CRPS." ∧
        vrcrps_ensemble [1] [[0, 2]] (fun _ => 1) (-1) "pwm" =
          Except.error
            "Only the energy form of the estimator is available for the outcome-weighted CRPS.")) ∧
    ((∃ r, owcrps_ensemble [1] [[0, 2]] (fun _ => 1) (-1) "nrg" =
        Except.ok r) ∧
      ∃ r, vrcrps_ensemble [1] [[0, 2]] (fun _ => 1) (-1) "nrg" =
        Except.ok r) :=
  ⟨⟨by decide,
      (C6_owvr_estimator_validation [1] [[0, 2]] (fun _ => 1) (-1) "pwm").1
        (by decide)⟩,
    (C6_owvr_estimator_validation [1] [[0, 2]] (fun _ => 1) (-1) "nrg").2 rfl⟩

/-- C7: `crps_quantile` on a rectangular forecast array returns a
configuration error, with no pinball loss computed and no partial result,
exactly when the length of the last axis after the axis move differs from
the length of `alpha`; when the lengths match it returns a result. -/
theorem C7_quantile_shape_validation :
    ∀ (observations : List ℚ) (forecasts : List (List ℚ)) (alpha : List ℚ)
      (axis : Int),
      (∀ row ∈ moveaxisLast axis forecasts,
        row.length = lastDim (moveaxisLast axis forecasts)) →
      (lastDim (moveaxisLast axis forecasts) ≠ alpha.length →
        crps_quantile observations forecasts alpha axis =
          Except.error
            "Expected matching length of forecasts and alpha values.") ∧
      (lastDim (moveaxisLast axis forecasts) = alpha.length →
        ∃ scores,
          crps_quantile observations forecasts alpha axis =
            Except.ok scores) := by
  intro observations forecasts alpha axis _
  constructor
  · intro h
    simp [crps_quantile, h]
  · intro h
    unfold crps_quantile
    rw [if_neg (not_not_intro h)]
    exact ⟨_, rfl⟩

/-- Witness for C7: a 1 x 2 forecast array against levels of length 3
(rejected) and of length 2 (accepted). -/
theorem C7_quantile_shape_validation_witness :
    ((∀ row ∈ moveaxisLast (-1) [[0, 2]],
        row.length = lastDim (moveaxisLast (-1) [[0, 2]])) ∧
      lastDim (moveaxisLast (-1) [[0, 2]]) ≠ [1/4, 1/2, 3/4].length ∧
      crps_quantile [1] [[0, 2]] [1/4, 1/2, 3/4] (-1) =
        Except.error "Expected matching length of forecasts and alpha values.") ∧
    (lastDim (moveaxisLast (-1) [[0, 2]]) = [1/4, 3/4].length ∧
      ∃ scores,
        crps_quantile [1] [[0, 2]] [1/4, 3/4] (-1) = Except.ok scores) :=
  ⟨⟨by decide, by decide,
      (C7_quantile_shape_validation [1] [[0, 2]] [1/4, 1/2, 3/4] (-1)
          (by decide)).1 (by decide)⟩,
    ⟨by decide,
      (C7_quantile_shape_validation [1] [[0, 2]] [1/4, 3/4] (-1)
          (by decide)).2 (by decide)⟩⟩

/-- An IEEE less-than against a numeric right operand holds exactly for
numeric left operands below it. -/
theorem floatLt_num_right_iff (f : FloatVal) (c : ℚ) :
    FloatVal.lt f (FloatVal.num c) = true ↔ ∃ q, f = FloatVal.num q ∧ q < c := by
  cases f <;> simp [FloatVal.lt]

/-- An IEEE less-than against a numeric left operand holds exactly for
numeric right operands above it. -/
theorem floatLt_num_left_iff (c : ℚ) (f : FloatVal) :
    FloatVal.lt (FloatVal.num c) f = true ↔ ∃ q, f = FloatVal.num q ∧ c < q := by
  cases f <;> simp [FloatVal.lt]

/-- The observation validity test of `brier_score` holds exactly when every
numeric entry is 0 or 1. -/
theorem brierObsCheck_iff (l : List FloatVal) :
    (l.all (fun y =>
      y.isnan || y == FloatVal.num 0 || y == FloatVal.num 1) = true) ↔
      ∀ q : ℚ, FloatVal.num q ∈ l → q = 0 ∨ q = 1 := by
  rw [List.all_eq_true]
  constructor
  · intro h q hq
    have := h _ hq
    simpa [FloatVal.isnan] using this
  · intro h y hy
    cases y with
    | nan => simp [FloatVal.isnan]
    | num q => simpa [FloatVal.isnan] using h q hy


/-- The forecast range test of `brier_score` fires exactly when some numeric
forecast entry is below 0 or above `1 + EPSILON`. -/
theorem brierFctCheck_iff (l : List FloatVal) :
    ((l.any (fun f => FloatVal.lt f (FloatVal.num 0))) ||
        (l.any (fun f => FloatVal.lt (FloatVal.num (1 + EPSILON)) f))) = true ↔
      ∃ q : ℚ, FloatVal.num q ∈ l ∧ (q < 0 ∨ 1 + EPSILON < q) := by
  rw [Bool.or_eq_true, List.any_eq_true, List.any_eq_true]
  constructor
  · rintro (⟨f, hf, hlt⟩ | ⟨f, hf, hlt⟩)
    · obtain ⟨q, rfl, hq⟩ := (floatLt_num_right_iff f 0).1 hlt
      exact ⟨q, hf, Or.inl hq⟩
    · obtain ⟨q, rfl, hq⟩ := (floatLt_num_left_iff _ f).1 hlt
      exact ⟨q, hf, Or.inr hq⟩
  · rintro ⟨q, hq, hlt | hlt⟩
    · exact Or.inl ⟨_, hq, (floatLt_num_right_iff _ 0).2 ⟨q, rfl, hlt⟩⟩
    · exact Or.inr ⟨_, hq, (floatLt_num_left_iff _ _).2 ⟨q, rfl, hlt⟩⟩

/-- C5: for forecasts with no NaN entries, `brier_score` returns a
configuration error exactly when some forecast entry is below 0 or above
`1 + 1e-7` or some non-NaN observation entry is neither 0 nor 1; otherwise
it returns the elementwise squared error, so `brier_score(1.0, 0)` is 1.0
and `brier_score(0.5, 1)` is 0.25. -/
theorem C5_brier_validation :
    (∀ (forecasts observations : List FloatVal),
      (∀ f ∈ forecasts, ¬ f.isnan = true) →
      (((∃ msg, brier_score forecasts observations = Except.error msg) ↔
          (∃ q : ℚ, FloatVal.num q ∈ forecasts ∧ (q < 0 ∨ 1 + EPSILON < q)) ∨
            ∃ q : ℚ, FloatVal.num q ∈ observations ∧ ¬(q = 0 ∨ q = 1)) ∧
        (¬ ((∃ q : ℚ, FloatVal.num q ∈ forecasts ∧ (q < 0 ∨ 1 + EPSILON < q)) ∨
              ∃ q : ℚ, FloatVal.num q ∈ observations ∧ ¬(q = 0 ∨ q = 1)) →
          brier_score forecasts observations =
            Except.ok (List.zipWith (fun f y => (f.sub y).sq)
              forecasts observations)))) ∧
    brier_score [FloatVal.num 1] [FloatVal.num 0] =
      Except.ok [FloatVal.num 1] ∧
    brier_score [FloatVal.num (1/2)] [FloatVal.num 1] =
      Except.ok [FloatVal.num (1/4)] := by
  refine ⟨?_,
    by norm_num [brier_score, FloatVal.lt, FloatVal.sub, FloatVal.sq, EPSILON],
    by norm_num [brier_score, FloatVal.lt, FloatVal.sub, FloatVal.sq, EPSILON]⟩
  intro forecasts observations _
  by_cases h1 : ((forecasts.any (fun f => FloatVal.lt f (FloatVal.num 0))) ||
      (forecasts.any (fun f => FloatVal.lt (FloatVal.num (1 + EPSILON)) f)))
        = true
  · have herr : brier_score forecasts observations =
        Except.error "Forecasted probabilities must be within 0 and 1." := by
      rw [brier_score, if_pos h1]
    constructor
    · exact ⟨fun _ => Or.inl ((brierFctCheck_iff forecasts).1 h1),
        fun _ => ⟨_, herr⟩⟩
    · intro hno
      exact absurd (Or.inl ((brierFctCheck_iff forecasts).1 h1)) hno
  · by_cases h2 : (observations.all (fun y =>
        y.isnan || y == FloatVal.num 0 || y == FloatVal.num 1)) = true
    · have hok : brier_score forecasts observations =
          Except.ok (List.zipWith (fun f y => (f.sub y).sq)
            forecasts observations) := by
        rw [brier_score, if_neg h1, if_neg (not_not_intro h2)]
      constructor
      · constructor
        · rintro ⟨msg, hmsg⟩
          rw [hok] at hmsg
          exact absurd hmsg (by simp)
        · rintro (hq | ⟨q, hq, hne⟩)
          · exact absurd ((brierFctCheck_iff forecasts).2 hq) h1
          · exact absurd ((brierObsCheck_iff observations).1 h2 q hq) hne
      · exact fun _ => hok
    · have herr : brier_score forecasts observations =
          Except.error "Observations must be 0, 1, or NaN" := by
        rw [brier_score, if_neg h1, if_pos h2]
      constructor
      · constructor
        · intro _
          refine Or.inr ?_
          by_contra hno
          push_neg at hno
          exact h2 ((brierObsCheck_iff observations).2 fun q hq => by
            have := hno q hq
            tauto)
        · intro _
          exact ⟨_, herr⟩
      · intro hno
        refine absurd (Or.inr ?_) hno
        by_contra hno'
        push_neg at hno'
        refine h2 ((brierObsCheck_iff observations).2 fun q hq => ?_)
        have := hno' q hq
        tauto

/-- Witness for C5: the NaN-free forecast list containing 1 against the
observation 0. -/
theorem C5_brier_validation_witness :
    (∀ f ∈ [FloatVal.num 1], ¬ f.isnan = true) ∧
      (((∃ msg, brier_score [FloatVal.num 1] [FloatVal.num 0] =
            Except.error msg) ↔
          (∃ q : ℚ, FloatVal.num q ∈ [FloatVal.num 1] ∧
            (q < 0 ∨ 1 + EPSILON < q)) ∨
            ∃ q : ℚ, FloatVal.num q ∈ [FloatVal.num 0] ∧ ¬(q = 0 ∨ q = 1)) ∧
        (¬ ((∃ q : ℚ, FloatVal.num q ∈ [FloatVal.num 1] ∧
              (q < 0 ∨ 1 + EPSILON < q)) ∨
              ∃ q : ℚ, FloatVal.num q ∈ [FloatVal.num 0] ∧ ¬(q = 0 ∨ q = 1)) →
          brier_score [FloatVal.num 1] [FloatVal.num 0] =
            Except.ok (List.zipWith (fun f y => (f.sub y).sq)
              [FloatVal.num 1] [FloatVal.num 0]))) :=
  ⟨by decide, C5_brier_validation.1 [FloatVal.num 1] [FloatVal.num 0] (by decide)⟩

/-- C10: `brier_score` never rejects NaN forecast entries: if every numeric
forecast entry is in `[0, 1 + 1e-7]` and every observation entry is 0, 1 or
NaN, the call passes both validations even when forecasts contain NaN, and
every NaN forecast position yields NaN at the same position of the returned
squared-error array. -/
theorem C10_brier_nan_passthrough :
    ∀ (forecasts observations : List FloatVal),
      forecasts.length = observations.length →
      (∀ q : ℚ, FloatVal.num q ∈ forecasts → 0 ≤ q ∧ q ≤ 1 + EPSILON) →
      (∀ y ∈ observations,
        y = FloatVal.nan ∨ y = FloatVal.num 0 ∨ y = FloatVal.num 1) →
      ∃ r, brier_score forecasts observations = Except.ok r ∧
        r.length = forecasts.length ∧
        ∀ (i : ℕ) (hi : i < forecasts.length) (hr : i < r.length),
          forecasts.get ⟨i, hi⟩ = FloatVal.nan →
            r.get ⟨i, hr⟩ = FloatVal.nan := by
  intro forecasts observations hlen hf hy
  have h1 : ((forecasts.any (fun f => FloatVal.lt f (FloatVal.num 0))) ||
      (forecasts.any (fun f => FloatVal.lt (FloatVal.num (1 + EPSILON)) f)))
        = false := by
    rw [Bool.or_eq_false_iff]
    constructor <;> rw [List.any_eq_false] <;> intro f hmem
    · cases f with
      | nan => simp [FloatVal.lt]
      | num q =>
        simp only [FloatVal.lt, decide_eq_true_eq]
        exact not_lt.2 (hf q hmem).1
    · cases f with
      | nan => simp [FloatVal.lt]
      | num q =>
        simp only [FloatVal.lt, decide_eq_true_eq]
        exact not_lt.2 (hf q hmem).2
  have h2 : (observations.all (fun y =>
      y.isnan || y == FloatVal.num 0 || y == FloatVal.num 1)) = true := by
    rw [List.all_eq_true]
    intro y hmem
    rcases hy y hmem with rfl | rfl | rfl <;> simp [FloatVal.isnan]
  refine ⟨List.zipWith (fun f y => (f.sub y).sq) forecasts observations,
    by rw [brier_score, if_neg (by simp [h1]), if_neg (not_not_intro h2)],
    ?_, ?_⟩
  · rw [List.length_zipWith, hlen, Nat.min_self]
  · intro i hi hr hnan
    rw [List.get_eq_getElem, List.getElem_zipWith]
    rw [List.get_eq_getElem] at hnan
    rw [hnan]
    cases observations[i] <;> rfl

/-- Witness for C10: a forecast list with a NaN in the first position. -/
theorem C10_brier_nan_passthrough_witness :
    [FloatVal.nan, FloatVal.num (1/2)].length =
        [FloatVal.num 1, FloatVal.num 0].length ∧
      ∃ r, brier_score [FloatVal.nan, FloatVal.num (1/2)]
            [FloatVal.num 1, FloatVal.num 0] = Except.ok r ∧
          r.length = [FloatVal.nan, FloatVal.num (1/2)].length ∧
          ∀ (i : ℕ) (hi : i < [FloatVal.nan, FloatVal.num (1/2)].length)
            (hr : i < r.length),
            [FloatVal.nan, FloatVal.num (1/2)].get ⟨i, hi⟩ = FloatVal.nan →
              r.get ⟨i, hr⟩ = FloatVal.nan :=
  ⟨rfl,
    C10_brier_nan_passthrough [FloatVal.nan, FloatVal.num (1/2)]
      [FloatVal.num 1, FloatVal.num 0] rfl
      (by
        intro q hq
        simp only [List.mem_cons, List.not_mem_nil, or_false] at hq
        rcases hq with hq | hq
        · exact absurd hq (by simp)
        · rcases FloatVal.num.injEq .. ▸ hq with h
          have : q = 1/2 := by injection hq
          subst this
          norm_num [EPSILON])
      (by intro y hy; simp only [List.mem_cons, List.not_mem_nil, or_false] at hy;
          tauto)⟩

/-- C8: with zero scale the closed-form scorers degenerate to the absolute
distance between the observation and the degenerate point mass: `|y - μ|`
for the normal and logistic families and `|y - exp μ|` for the lognormal
family; the results are well-defined real values, not NaN or an
exception. -/
theorem C8_zero_scale_degenerates :
    ∀ (y mu : ℝ),
      crps_normal y mu 0 = |y - mu| ∧
      crps_logistic y mu 0 = |y - mu| ∧
      crps_lognormal y mu 0 = |y - Real.exp mu| := by
  intro y mu
  refine ⟨?_, ?_, ?_⟩ <;> simp [crps_normal, crps_logistic, crps_lognormal]

/-- C9: for every observation and positive rate, `crps_exponential` equals
the closed form `|y| - 2 F_λ(y)/λ + 1/(2λ)` with `F_λ` the exponential
distribution function, and at the spec scenario (0.8, 3.0) the value is
0.360478635526275 up to 1e-9. -/
theorem C9_exponential_closed_form :
    (∀ (y rate : ℝ), 0 < rate →
      crps_exponential y rate =
        |y| - 2 * expCdf rate y / rate + 1 / (2 * rate)) ∧
    |crps_exponential 0.8 3.0 - 0.360478635526275| < 1 / 10 ^ 9 := by
  constructor
  · intro y rate _
    rfl
  · have hx : |(-(3/5) : ℝ)| ≤ 1 := by
      rw [abs_neg, abs_of_nonneg] <;> norm_num
    have hb := Real.exp_bound hx (by norm_num : (0:ℕ) < 12)
    have hs : (∑ i ∈ Finset.range 12, (-(3/5):ℝ) ^ i / i.factorial) =
        206340312397 / 375976562500 := by
      norm_num [Finset.sum_range_succ, Nat.factorial]
    rw [hs] at hb
    have hb' : |Real.exp (-(3/5)) - 206340312397 / 375976562500| ≤
        9477 / 1925000000000000 := by
      refine hb.trans ?_
      rw [abs_neg, abs_of_nonneg (by norm_num : (0:ℝ) ≤ 3/5)]
      norm_num [Nat.factorial]
    have h1 := abs_le.1 hb'
    have hlo : (0.54881163608 : ℝ) ≤ Real.exp (-(3/5)) := by
      have : (0.54881163608 : ℝ) ≤
          206340312397 / 375976562500 - 9477 / 1925000000000000 := by norm_num
      linarith [h1.1]
    have hhi : Real.exp (-(3/5)) ≤ (0.54881163610 : ℝ) := by
      have : (206340312397 / 375976562500 + 9477 / 1925000000000000 : ℝ) ≤
          0.54881163610 := by norm_num
      linarith [h1.2]
    have hE : Real.exp (-(12/5 : ℝ)) = Real.exp (-(3/5)) ^ 4 := by
      rw [show (-(12/5 : ℝ)) = (4 : ℕ) * (-(3/5)) by push_cast; ring,
        Real.exp_nat_mul]
    have h0 : (0:ℝ) ≤ 0.54881163608 := by norm_num
    have e_lo : (0.0907179532 : ℝ) ≤ Real.exp (-(3/5)) ^ 4 :=
      le_trans (by norm_num) (pow_le_pow_left₀ h0 hlo 4)
    have e_hi : Real.exp (-(3/5)) ^ 4 ≤ (0.0907179533 : ℝ) :=
      le_trans (pow_le_pow_left₀ (h0.trans hlo) hhi 4) (by norm_num)
    have hval : crps_exponential 0.8 3.0 =
        3/10 + 2/3 * Real.exp (-(12/5)) := by
      rw [crps_exponential, expCdf, if_neg (by norm_num : ¬ (0.8 : ℝ) < 0),
        abs_of_nonneg (by norm_num : (0:ℝ) ≤ 0.8),
        show (-((3.0:ℝ) * 0.8)) = -(12/5 : ℝ) by norm_num]
      ring_nf
    rw [hval, hE, abs_lt]
    constructor <;> linarith [e_lo, e_hi]

/-- Witness for C9 at observation 0 and rate 1. -/
theorem C9_exponential_closed_form_witness :
    (0:ℝ) < 1 ∧
      crps_exponential 0 1 = |(0:ℝ)| - 2 * expCdf 1 0 / 1 + 1 / (2 * 1) :=
  ⟨one_pos, C9_exponential_closed_form.1 0 1 one_pos⟩

open MeasureTheory in
/-- The standard normal density rewritten in the shape of the Gaussian
integral lemmas. -/
theorem stdnormPdf_eq :
    stdnormPdf = fun x => Real.exp (-(1/2) * x ^ 2) / Real.sqrt (2 * Real.pi) := by
  funext x
  rw [stdnormPdf]
  ring_nf

/-- The standard normal density is positive. -/
theorem stdnormPdf_pos (x : ℝ) : 0 < stdnormPdf x := by
  refine div_pos (Real.exp_pos _) (Real.sqrt_pos.2 ?_)
  positivity

/-- The standard normal density is nonnegative. -/
theorem stdnormPdf_nonneg (x : ℝ) : 0 ≤ stdnormPdf x := (stdnormPdf_pos x).le

/-- The standard normal density is even. -/
theorem stdnormPdf_neg (x : ℝ) : stdnormPdf (-x) = stdnormPdf x := by
  rw [stdnormPdf, stdnormPdf, neg_sq]

/-- The standard normal density is continuous. -/
theorem continuous_stdnormPdf : Continuous stdnormPdf := by
  rw [show stdnormPdf = fun x => Real.exp (-(x^2)/2) / Real.sqrt (2 * Real.pi)
    from rfl]
  exact (Real.continuous_exp.comp ((continuous_pow 2).neg.div_const 2)).div_const _

/-- The standard normal density is integrable over the line. -/
theorem integrable_stdnormPdf : MeasureTheory.Integrable stdnormPdf := by
  rw [stdnormPdf_eq]
  exact (integrable_exp_neg_mul_sq (by norm_num)).div_const _

/-- The standard normal density integrates to one. -/
theorem integral_stdnormPdf : ∫ x, stdnormPdf x = 1 := by
  rw [stdnormPdf_eq]
  rw [MeasureTheory.integral_div, integral_gaussian]
  rw [show Real.pi / (1/2 : ℝ) = 2 * Real.pi by ring]
  exact div_self (Real.sqrt_ne_zero'.2 (by positivity))

/-- The standard normal distribution function is monotone. -/
theorem stdnormCdf_mono : Monotone stdnormCdf := by
  intro a b hab
  refine MeasureTheory.setIntegral_mono_set
    integrable_stdnormPdf.integrableOn
    (MeasureTheory.ae_of_all _ fun x => stdnormPdf_nonneg x) ?_
  exact (Set.Iic_subset_Iic.2 hab).eventuallyLE

/-- The standard normal distribution function is nonnegative. -/
theorem stdnormCdf_nonneg (x : ℝ) : 0 ≤ stdnormCdf x :=
  MeasureTheory.setIntegral_nonneg measurableSet_Iic fun t _ => stdnormPdf_nonneg t

/-- The standard normal distribution function is at most one. -/
theorem stdnormCdf_le_one (x : ℝ) : stdnormCdf x ≤ 1 := by
  rw [← integral_stdnormPdf]
  exact MeasureTheory.setIntegral_le_integral integrable_stdnormPdf
    (MeasureTheory.ae_of_all _ fun t => stdnormPdf_nonneg t)

/-- Reflection identity for the standard normal distribution function. -/
theorem stdnormCdf_neg (x : ℝ) : stdnormCdf (-x) = 1 - stdnormCdf x := by
  have h1 : stdnormCdf (-x) = ∫ t in Set.Ioi x, stdnormPdf t := by
    rw [stdnormCdf]
    rw [show (∫ t in Set.Iic (-x), stdnormPdf t) =
        ∫ t in Set.Iic (-x), stdnormPdf (-t) by
      congr 1
      funext t
      rw [stdnormPdf_neg]]
    rw [integral_comp_neg_Iic, neg_neg]
  have h2 := MeasureTheory.integral_add_compl
    (measurableSet_Iic : MeasurableSet (Set.Iic x)) integrable_stdnormPdf
  rw [Set.compl_Iic, integral_stdnormPdf] at h2
  rw [h1, stdnormCdf]
  linarith

/-- The standard normal distribution function at zero is one half. -/
theorem stdnormCdf_zero : stdnormCdf 0 = 1/2 := by
  have := stdnormCdf_neg 0
  rw [neg_zero] at this
  linarith

/-- Difference of standard normal distribution values as an interval
integral. -/
theorem stdnormCdf_sub (a b : ℝ) :
    stdnormCdf b - stdnormCdf a = ∫ t in a..b, stdnormPdf t :=
  intervalIntegral.integral_Iic_sub_Iic
    integrable_stdnormPdf.integrableOn integrable_stdnormPdf.integrableOn

/-- Fundamental theorem of calculus for the moment integrand of the normal
density: the minus density is an antiderivative of `t * pdf t`. -/
theorem integral_id_mul_stdnormPdf (w : ℝ) :
    ∫ t in (0:ℝ)..w, t * stdnormPdf t = stdnormPdf 0 - stdnormPdf w := by
  have hderiv : ∀ t ∈ Set.uIcc (0:ℝ) w,
      HasDerivAt (fun u => -stdnormPdf u) (t * stdnormPdf t) t := by
    intro t _
    have h1 : HasDerivAt (fun u : ℝ => -(u^2)/2) (-t) t := by
      have h := ((hasDerivAt_pow 2 t).neg).div_const (2:ℝ)
      convert h using 1
      norm_num
      ring
    have h2 := (Real.hasDerivAt_exp (-(t^2)/2)).comp t h1
    have h3 := (h2.div_const (Real.sqrt (2 * Real.pi))).neg
    convert h3 using 1
    rw [stdnormPdf]
    ring
  have hint : IntervalIntegrable (fun t => t * stdnormPdf t)
      MeasureTheory.volume 0 w :=
    (continuous_id.mul continuous_stdnormPdf).intervalIntegrable 0 w
  have h := intervalIntegral.integral_eq_sub_of_hasDerivAt hderiv hint
  rw [h]
  ring

/-- The kernel of the normal closed form expands into a manifestly
nonnegative integral plus a positive constant. -/
theorem normalKernel_expand (w : ℝ) :
    w * (2 * stdnormCdf w - 1) + 2 * stdnormPdf w - 1 / Real.sqrt Real.pi =
      2 * (∫ t in (0:ℝ)..w, (w - t) * stdnormPdf t) +
        (2 * stdnormPdf 0 - 1 / Real.sqrt Real.pi) := by
  have hφ : IntervalIntegrable stdnormPdf MeasureTheory.volume 0 w :=
    continuous_stdnormPdf.intervalIntegrable 0 w
  have htφ : IntervalIntegrable (fun t => t * stdnormPdf t)
      MeasureTheory.volume 0 w :=
    (continuous_id.mul continuous_stdnormPdf).intervalIntegrable 0 w
  have hsplit : (∫ t in (0:ℝ)..w, (w - t) * stdnormPdf t) =
      w * (∫ t in (0:ℝ)..w, stdnormPdf t) -
        ∫ t in (0:ℝ)..w, t * stdnormPdf t := by
    rw [← intervalIntegral.integral_const_mul, ← intervalIntegral.integral_sub
      (hφ.const_mul w) htφ]
    congr 1
    funext t
    ring
  have hcdf : 2 * stdnormCdf w - 1 = 2 * ∫ t in (0:ℝ)..w, stdnormPdf t := by
    have := stdnormCdf_sub 0 w
    rw [stdnormCdf_zero] at this
    linarith
  have hpdf : stdnormPdf w = stdnormPdf 0 - ∫ t in (0:ℝ)..w, t * stdnormPdf t := by
    have := integral_id_mul_stdnormPdf w
    linarith
  rw [hcdf, hsplit]
  rw [hpdf]
  ring

/-- The nonnegative-integral part of the normal kernel expansion. -/
theorem normalKernel_integral_nonneg (w : ℝ) :
    0 ≤ ∫ t in (0:ℝ)..w, (w - t) * stdnormPdf t := by
  rcases le_or_lt 0 w with hw | hw
  · refine intervalIntegral.integral_nonneg hw fun t ht => ?_
    exact mul_nonneg (by linarith [ht.2]) (stdnormPdf_nonneg t)
  · rw [intervalIntegral.integral_symm]
    have h : (∫ t in w..(0:ℝ), (w - t) * stdnormPdf t) ≤ 0 := by
      have hint : IntervalIntegrable (fun t => (w - t) * stdnormPdf t)
          MeasureTheory.volume w 0 :=
        ((continuous_const.sub continuous_id).mul
          continuous_stdnormPdf).intervalIntegrable w 0
      have hzero : IntervalIntegrable (fun _ : ℝ => (0:ℝ))
          MeasureTheory.volume w 0 :=
        continuous_const.intervalIntegrable w 0
      have hmono := intervalIntegral.integral_mono_on hw.le hint hzero
        (fun t ht => mul_nonpos_of_nonpos_of_nonneg (by linarith [ht.1])
          (stdnormPdf_nonneg t))
      simpa using hmono
    linarith

/-- The constant part of the normal kernel expansion is positive. -/
theorem normalKernel_const_pos :
    0 < 2 * stdnormPdf 0 - 1 / Real.sqrt Real.pi := by
  have hsp : 0 < Real.sqrt Real.pi := Real.sqrt_pos.2 Real.pi_pos
  have hs2 : 0 < Real.sqrt 2 := Real.sqrt_pos.2 (by norm_num)
  have h2 : Real.sqrt 2 < 2 := by
    have hsq := Real.sq_sqrt (by norm_num : (0:ℝ) ≤ 2)
    nlinarith [hs2]
  have h0 : stdnormPdf 0 = 1 / (Real.sqrt 2 * Real.sqrt Real.pi) := by
    rw [stdnormPdf, Real.sqrt_mul (by norm_num : (0:ℝ) ≤ 2)]
    norm_num [Real.exp_zero]
  rw [h0, mul_one_div, sub_pos, div_lt_div_iff₀ hsp (by positivity)]
  nlinarith [hsp, hs2, h2]

/-- Non-negativity of the normal closed form for nonnegative scale. -/
theorem crps_normal_nonneg (y mu sigma : ℝ) (h : 0 ≤ sigma) :
    0 ≤ crps_normal y mu sigma := by
  rw [crps_normal]
  split_ifs with h0
  · exact abs_nonneg _
  · show 0 ≤ sigma * ((y - mu) / sigma * (2 * stdnormCdf ((y - mu) / sigma) - 1)
      + 2 * stdnormPdf ((y - mu) / sigma) - 1 / Real.sqrt Real.pi)
    refine mul_nonneg h ?_
    have he := normalKernel_expand ((y - mu) / sigma)
    have h1 := normalKernel_integral_nonneg ((y - mu) / sigma)
    have h2 := normalKernel_const_pos
    linarith

/-- The logistic kernel `ω - 2 log F(ω) - 1` is nonnegative, via
`1 + exp(-ω) = exp(-ω/2) · 2 cosh(ω/2)` and `cosh ≥ 1`. -/
theorem logisticKernel_nonneg (w : ℝ) :
    0 ≤ w - 2 * Real.log (stdlogisticCdf w) - 1 := by
  have hpos : 0 < 1 + Real.exp (-w) := by positivity
  have hlog : Real.log (stdlogisticCdf w) = -Real.log (1 + Real.exp (-w)) := by
    rw [stdlogisticCdf, one_div, Real.log_inv]
  have hfact : 1 + Real.exp (-w) =
      Real.exp (-(w/2)) * (2 * Real.cosh (w/2)) := by
    rw [Real.cosh_eq, mul_comm (2:ℝ), div_mul_cancel₀ _ (two_ne_zero), mul_add,
      ← Real.exp_add, ← Real.exp_add]
    norm_num
    ring
  have hcosh0 : 0 < 2 * Real.cosh (w/2) := by
    linarith [Real.one_le_cosh (w/2)]
  have hsplit : Real.log (1 + Real.exp (-w)) =
      -(w/2) + Real.log (2 * Real.cosh (w/2)) := by
    rw [hfact, Real.log_mul (Real.exp_ne_zero _) (ne_of_gt hcosh0), Real.log_exp]
  have hmono : Real.log 2 ≤ Real.log (2 * Real.cosh (w/2)) := by
    have := Real.one_le_cosh (w/2)
    exact Real.log_le_log (by norm_num) (by linarith)
  have hl2 : (1/2 : ℝ) < Real.log 2 := by
    have := Real.log_two_gt_d9
    linarith
  rw [hlog]
  linarith

/-- Non-negativity of the logistic closed form for nonnegative scale. -/
theorem crps_logistic_nonneg (y mu sigma : ℝ) (h : 0 ≤ sigma) :
    0 ≤ crps_logistic y mu sigma := by
  rw [crps_logistic]
  split_ifs with h0
  · exact abs_nonneg _
  · exact mul_nonneg h (logisticKernel_nonneg _)

/-- Non-negativity of the exponential closed form for positive rate. -/
theorem crps_exponential_nonneg (y rate : ℝ) (h : 0 < rate) :
    0 ≤ crps_exponential y rate := by
  rw [crps_exponential, expCdf]
  split_ifs with hy
  · have h1 : (0:ℝ) ≤ |y| := abs_nonneg y
    have h2 : 0 < 1 / (2 * rate) := by positivity
    have h3 : 2 * (0:ℝ) / rate = 0 := by ring
    rw [h3]
    linarith
  · push_neg at hy
    rw [abs_of_nonneg hy]
    have hkey : 1 + Real.log 2 ≤ rate * y + 2 * Real.exp (-(rate * y)) := by
      have h1 := Real.add_one_le_exp (Real.log 2 - rate * y)
      rw [Real.exp_sub, Real.exp_log (by norm_num : (0:ℝ) < 2)] at h1
      have h2 : 2 / Real.exp (rate * y) = 2 * Real.exp (-(rate * y)) := by
        rw [Real.exp_neg]
        ring
      rw [h2] at h1
      linarith
    have hl2 : (1/2 : ℝ) < Real.log 2 := by
      have := Real.log_two_gt_d9
      linarith
    have hexpand : y - 2 * (1 - Real.exp (-(rate * y))) / rate + 1 / (2 * rate) =
        (rate * y + 2 * Real.exp (-(rate * y)) - 3/2) / rate := by
      field_simp
      ring
    rw [hexpand]
    apply div_nonneg _ h.le
    linarith

/-- Shifting the normal density by sigma multiplies it by an exponential
tilt; stated with the lognormal prefactor. -/
theorem expMulPdf_shift (mu sigma t : ℝ) :
    Real.exp (mu + sigma^2/2) * stdnormPdf (t - sigma) =
      Real.exp mu * (stdnormPdf t * Real.exp (sigma * t)) := by
  rw [stdnormPdf, stdnormPdf]
  rw [mul_div_assoc', div_mul_eq_mul_div, mul_div_assoc', ← Real.exp_add,
    mul_comm (Real.exp (-(t^2)/2)) (Real.exp (sigma * t)), ← Real.exp_add,
    ← Real.exp_add]
  congr 2
  ring

/-- The lognormal prefactor pulls through the shifted interval integral. -/
theorem expShift_integral (mu sigma w : ℝ) :
    Real.exp (mu + sigma^2/2) * (∫ t in (0:ℝ)..w, stdnormPdf (t - sigma)) =
      Real.exp mu * ∫ t in (0:ℝ)..w, stdnormPdf t * Real.exp (sigma * t) := by
  rw [← intervalIntegral.integral_const_mul, ← intervalIntegral.integral_const_mul]
  congr 1
  funext t
  exact expMulPdf_shift mu sigma t

/-- Key comparison for the lognormal closed form: the exponentially tilted
mass on `[0, ω]` is dominated by the tilt evaluated at the endpoint. -/
theorem lognormal_integral_key (sigma w : ℝ) (hs : 0 ≤ sigma) :
    (∫ t in (0:ℝ)..w, stdnormPdf t * Real.exp (sigma * t)) ≤
      Real.exp (sigma * w) * ∫ t in (0:ℝ)..w, stdnormPdf t := by
  have hc1 : Continuous fun t => stdnormPdf t * Real.exp (sigma * t) :=
    continuous_stdnormPdf.mul (Real.continuous_exp.comp
      (continuous_const.mul continuous_id))
  rcases le_or_lt 0 w with hw | hw
  · rw [← intervalIntegral.integral_const_mul]
    refine intervalIntegral.integral_mono_on hw
      (hc1.intervalIntegrable 0 w)
      ((continuous_const.mul continuous_stdnormPdf).intervalIntegrable 0 w) ?_
    intro t ht
    have hexp : Real.exp (sigma * t) ≤ Real.exp (sigma * w) :=
      Real.exp_le_exp.2 (mul_le_mul_of_nonneg_left ht.2 hs)
    calc stdnormPdf t * Real.exp (sigma * t) ≤
        stdnormPdf t * Real.exp (sigma * w) :=
          mul_le_mul_of_nonneg_left hexp (stdnormPdf_nonneg t)
      _ = Real.exp (sigma * w) * stdnormPdf t := mul_comm _ _
  · rw [intervalIntegral.integral_symm w 0, intervalIntegral.integral_symm w 0,
      mul_neg, neg_le_neg_iff]
    rw [← intervalIntegral.integral_const_mul]
    refine intervalIntegral.integral_mono_on hw.le
      ((continuous_const.mul continuous_stdnormPdf).intervalIntegrable w 0)
      (hc1.intervalIntegrable w 0) ?_
    intro t ht
    have hexp : Real.exp (sigma * w) ≤ Real.exp (sigma * t) :=
      Real.exp_le_exp.2 (mul_le_mul_of_nonneg_left ht.1 hs)
    calc Real.exp (sigma * w) * stdnormPdf t ≤
        Real.exp (sigma * t) * stdnormPdf t :=
          mul_le_mul_of_nonneg_right hexp (stdnormPdf_nonneg t)
      _ = stdnormPdf t * Real.exp (sigma * t) := mul_comm _ _

/-- One is at most the square root of two. -/
theorem one_le_sqrt_two : (1:ℝ) ≤ Real.sqrt 2 := by
  rw [show (1:ℝ) = Real.sqrt 1 by rw [Real.sqrt_one]]
  exact Real.sqrt_le_sqrt (by norm_num)

/-- Non-negativity of the lognormal closed form on the support of the
lognormal distribution, for nonnegative log-scale. -/
theorem crps_lognormal_nonneg (y mu sigma : ℝ) (hy : 0 < y) (hs : 0 ≤ sigma) :
    0 ≤ crps_lognormal y mu sigma := by
  rw [crps_lognormal]
  split_ifs with h0
  · exact abs_nonneg _
  · have hspos : 0 < sigma := hs.lt_of_ne (Ne.symm h0)
    show 0 ≤ y * (2 * stdnormCdf ((Real.log y - mu) / sigma) - 1) -
      2 * Real.exp (mu + sigma ^ 2 / 2) *
        (stdnormCdf ((Real.log y - mu) / sigma - sigma) +
          stdnormCdf (sigma / Real.sqrt 2) - 1)
    set w := (Real.log y - mu) / sigma with hwdef
    have hyw : y = Real.exp (mu + sigma * w) := by
      have harg : mu + sigma * w = Real.log y := by
        rw [hwdef]
        field_simp
      rw [harg, Real.exp_log hy]
    set A := ∫ t in (0:ℝ)..w, stdnormPdf t with hA
    set B := ∫ t in (0:ℝ)..w, stdnormPdf t * Real.exp (sigma * t) with hB
    have h1 : 2 * stdnormCdf w - 1 = 2 * A := by
      have := stdnormCdf_sub 0 w
      rw [stdnormCdf_zero] at this
      linarith
    have hI : stdnormCdf (w - sigma) = stdnormCdf (-sigma) +
        ∫ t in (0:ℝ)..w, stdnormPdf (t - sigma) := by
      have hsub := stdnormCdf_sub (-sigma) (w - sigma)
      have hcomp : (∫ t in (0:ℝ)..w, stdnormPdf (t - sigma)) =
          ∫ t in (0:ℝ) - sigma..(w - sigma), stdnormPdf t :=
        intervalIntegral.integral_comp_sub_right (fun t => stdnormPdf t) sigma
      rw [zero_sub] at hcomp
      rw [hcomp]
      linarith [hsub]
    have hIB : Real.exp (mu + sigma^2/2) *
        (∫ t in (0:ℝ)..w, stdnormPdf (t - sigma)) = Real.exp mu * B :=
      expShift_integral mu sigma w
    have hneg : stdnormCdf (-sigma) = 1 - stdnormCdf sigma := stdnormCdf_neg sigma
    have hkey : B ≤ Real.exp (sigma * w) * A := lognormal_integral_key sigma w hs
    have hmono : stdnormCdf (sigma / Real.sqrt 2) ≤ stdnormCdf sigma :=
      stdnormCdf_mono (div_le_self hs one_le_sqrt_two)
    have hval : y * (2 * stdnormCdf w - 1) -
        2 * Real.exp (mu + sigma ^ 2 / 2) *
          (stdnormCdf (w - sigma) + stdnormCdf (sigma / Real.sqrt 2) - 1) =
        2 * Real.exp mu * (Real.exp (sigma * w) * A - B) +
          2 * Real.exp (mu + sigma^2/2) *
            (stdnormCdf sigma - stdnormCdf (sigma / Real.sqrt 2)) := by
      rw [hyw, h1, hI, hneg, Real.exp_add]
      linarith [hIB]
    rw [hval]
    have hterm1 : 0 ≤ 2 * Real.exp mu * (Real.exp (sigma * w) * A - B) := by
      have := Real.exp_pos mu
      nlinarith [hkey]
    have hterm2 : 0 ≤ 2 * Real.exp (mu + sigma^2/2) *
        (stdnormCdf sigma - stdnormCdf (sigma / Real.sqrt 2)) := by
      have := Real.exp_pos (mu + sigma^2/2)
      nlinarith [hmono]
    linarith

/-- A list sum of mapped values as an indexed sum over positions. -/
theorem listMapSum_eq (f : ℚ → ℚ) (xs : List ℚ) :
    (xs.map f).sum = ∑ i ∈ Finset.range xs.length, f (xs.getD i 0) := by
  induction xs with
  | nil => simp
  | cons a l ih =>
    rw [List.map_cons, List.sum_cons, List.length_cons, Finset.sum_range_succ']
    simp only [List.getD_cons_succ, List.getD_cons_zero]
    rw [ih]
    ring

/-- Triangle inequality for pairwise deviations through the observation. -/
theorem abs_pair_le (y a b : ℚ) : |a - b| ≤ |a - y| + |b - y| := by
  calc |a - b| ≤ |a - y| + |y - b| := abs_sub_le a y b
    _ = |a - y| + |b - y| := by rw [abs_sub_comm y b]

/-- The doubly indexed pairwise spread is at most `2 M` times the absolute
deviation sum. -/
theorem pairSum_le (y : ℚ) (xs : List ℚ) :
    (∑ i ∈ Finset.range xs.length, ∑ j ∈ Finset.range xs.length,
        |xs.getD i 0 - xs.getD j 0|) ≤
      2 * (xs.length : ℚ) *
        ∑ i ∈ Finset.range xs.length, |xs.getD i 0 - y| := by
  calc (∑ i ∈ Finset.range xs.length, ∑ j ∈ Finset.range xs.length,
        |xs.getD i 0 - xs.getD j 0|) ≤
      ∑ i ∈ Finset.range xs.length, ∑ j ∈ Finset.range xs.length,
        (|xs.getD i 0 - y| + |xs.getD j 0 - y|) := by
        refine Finset.sum_le_sum fun i _ => Finset.sum_le_sum fun j _ => ?_
        exact abs_pair_le y _ _
    _ = 2 * (xs.length : ℚ) *
        ∑ i ∈ Finset.range xs.length, |xs.getD i 0 - y| := by
        simp only [Finset.sum_add_distrib, Finset.sum_const, Finset.card_range,
          nsmul_eq_mul]
        rw [← Finset.mul_sum]
        ring

/-- Non-negativity of the energy-form kernel. -/
theorem nrgScore_nonneg (y : ℚ) (xs : List ℚ) : 0 ≤ nrgScore y xs := by
  rw [nrgScore]
  rcases Nat.eq_zero_or_pos xs.length with h0 | hpos
  · simp [h0]
  · have hn : (0:ℚ) < (xs.length : ℚ) := by exact_mod_cast hpos
    have hS : (0:ℚ) ≤ ∑ i ∈ Finset.range xs.length, |xs.getD i 0 - y| :=
      Finset.sum_nonneg fun i _ => abs_nonneg _
    have hD := pairSum_le y xs
    rw [sub_nonneg, div_le_div_iff₀ (by positivity) hn]
    nlinarith [hD, hS, hn]

/-- Non-negativity of the fair kernel: the pairwise spread with the zero
diagonal removed is at most `2 (M - 1)` times the absolute deviation sum. -/
theorem pairSum_le_fair (y : ℚ) (xs : List ℚ) (h : 1 ≤ xs.length) :
    (∑ i ∈ Finset.range xs.length, ∑ j ∈ Finset.range xs.length,
        |xs.getD i 0 - xs.getD j 0|) ≤
      2 * ((xs.length : ℚ) - 1) *
        ∑ i ∈ Finset.range xs.length, |xs.getD i 0 - y| := by
  have hdiag : ∀ i ∈ Finset.range xs.length,
      (∑ j ∈ Finset.range xs.length, |xs.getD i 0 - xs.getD j 0|) =
        ∑ j ∈ (Finset.range xs.length).erase i,
          |xs.getD i 0 - xs.getD j 0| := by
    intro i _
    rw [Finset.sum_erase _ (by simp)]
  rw [Finset.sum_congr rfl hdiag]
  have hbound : ∀ i ∈ Finset.range xs.length,
      (∑ j ∈ (Finset.range xs.length).erase i,
          |xs.getD i 0 - xs.getD j 0|) ≤
        ((xs.length : ℚ) - 2) * |xs.getD i 0 - y| +
          ∑ j ∈ Finset.range xs.length, |xs.getD j 0 - y| := by
    intro i hi
    calc (∑ j ∈ (Finset.range xs.length).erase i,
          |xs.getD i 0 - xs.getD j 0|) ≤
        ∑ j ∈ (Finset.range xs.length).erase i,
          (|xs.getD i 0 - y| + |xs.getD j 0 - y|) :=
          Finset.sum_le_sum fun j _ => abs_pair_le y _ _
      _ = ((xs.length : ℚ) - 1) * |xs.getD i 0 - y| +
          ∑ j ∈ (Finset.range xs.length).erase i, |xs.getD j 0 - y| := by
          rw [Finset.sum_add_distrib, Finset.sum_const, Finset.card_erase_of_mem hi,
            Finset.card_range, nsmul_eq_mul, Nat.cast_sub h]
          ring
      _ = ((xs.length : ℚ) - 2) * |xs.getD i 0 - y| +
          ∑ j ∈ Finset.range xs.length, |xs.getD j 0 - y| := by
          rw [Finset.sum_erase_eq_sub hi]
          ring
  calc (∑ i ∈ Finset.range xs.length,
        ∑ j ∈ (Finset.range xs.length).erase i, |xs.getD i 0 - xs.getD j 0|) ≤
      ∑ i ∈ Finset.range xs.length,
        (((xs.length : ℚ) - 2) * |xs.getD i 0 - y| +
          ∑ j ∈ Finset.range xs.length, |xs.getD j 0 - y|) :=
        Finset.sum_le_sum hbound
    _ = 2 * ((xs.length : ℚ) - 1) *
        ∑ i ∈ Finset.range xs.length, |xs.getD i 0 - y| := by
        rw [Finset.sum_add_distrib, ← Finset.mul_sum, Finset.sum_const,
          Finset.card_range, nsmul_eq_mul]
        ring

/-- Non-negativity of the fair kernel. -/
theorem fairScore_nonneg (y : ℚ) (xs : List ℚ) : 0 ≤ fairScore y xs := by
  rw [fairScore]
  have hS : (0:ℚ) ≤ ∑ i ∈ Finset.range xs.length, |xs.getD i 0 - y| :=
    Finset.sum_nonneg fun i _ => abs_nonneg _
  rcases Nat.lt_or_ge xs.length 2 with h2 | h2
  · have hd : (∑ i ∈ Finset.range xs.length, ∑ j ∈ Finset.range xs.length,
        |xs.getD i 0 - xs.getD j 0|) = 0 := by
      refine Finset.sum_eq_zero fun i hi => Finset.sum_eq_zero fun j hj => ?_
      simp only [Finset.mem_range] at hi hj
      have hij : i = j := by omega
      rw [hij, sub_self, abs_zero]
    rw [hd, zero_div, sub_zero]
    exact div_nonneg hS (Nat.cast_nonneg _)
  · have hn : (0:ℚ) < (xs.length : ℚ) := by
      have : 0 < xs.length := by omega
      exact_mod_cast this
    have hn1 : (0:ℚ) < (xs.length : ℚ) - 1 := by
      have : (2:ℚ) ≤ (xs.length : ℚ) := by exact_mod_cast h2
      linarith
    have hD := pairSum_le_fair y xs (by omega)
    rw [sub_nonneg, div_le_div_iff₀ (by positivity) hn]
    nlinarith [hD, hS, hn, hn1]

/-- The pwm order-statistics coefficients encode the strict-lower-triangle
pair differences. -/
theorem coeff_sum_eq (g : ℕ → ℚ) (n : ℕ) :
    (∑ i ∈ Finset.range n, ((2 * i + 1 : ℚ) - (n:ℚ)) * g i) =
      ∑ i ∈ Finset.range n, ∑ j ∈ Finset.range i, (g i - g j) := by
  induction n with
  | zero => simp
  | succ n ih =>
    rw [Finset.sum_range_succ
      (fun i => ((2 * (i:ℚ) + 1) - ((n+1 : ℕ):ℚ)) * g i),
      Finset.sum_range_succ (fun i => ∑ j ∈ Finset.range i, (g i - g j))]
    have hsplit : (∑ i ∈ Finset.range n,
        ((2 * (i:ℚ) + 1) - ((n+1 : ℕ):ℚ)) * g i) =
        (∑ i ∈ Finset.range n, ((2 * (i:ℚ) + 1) - (n:ℚ)) * g i) -
          ∑ i ∈ Finset.range n, g i := by
      rw [← Finset.sum_sub_distrib]
      refine Finset.sum_congr rfl fun i _ => ?_
      push_cast
      ring
    have hlast : (∑ j ∈ Finset.range n, (g n - g j)) =
        (n:ℚ) * g n - ∑ j ∈ Finset.range n, g j := by
      rw [Finset.sum_sub_distrib, Finset.sum_const, Finset.card_range,
        nsmul_eq_mul]
    rw [hsplit, ih, hlast]
    push_cast
    ring

/-- Strict-lower-triangle sums of symmetric pair values collapse to an
`(n - 1)`-fold sum. -/
theorem tri_sum (g : ℕ → ℚ) (n : ℕ) :
    (∑ i ∈ Finset.range n, ∑ j ∈ Finset.range i, (g i + g j)) =
      ((n:ℚ) - 1) * ∑ i ∈ Finset.range n, g i := by
  induction n with
  | zero => simp
  | succ n ih =>
    rw [Finset.sum_range_succ (fun i => ∑ j ∈ Finset.range i, (g i + g j)), ih]
    have hlast : (∑ j ∈ Finset.range n, (g n + g j)) =
        (n:ℚ) * g n + ∑ j ∈ Finset.range n, g j := by
      rw [Finset.sum_add_distrib, Finset.sum_const, Finset.card_range,
        nsmul_eq_mul]
    rw [hlast, Finset.sum_range_succ g]
    push_cast
    ring

/-- The pwm order-statistics term is at most `(M - 1)` times the absolute
deviation sum, for any ensemble. -/
theorem pwmTerm_le (y : ℚ) (xs : List ℚ) :
    (∑ i ∈ Finset.range xs.length,
        ((2 * i + 1 : ℚ) - (xs.length : ℚ)) * xs.getD i 0) ≤
      ((xs.length : ℚ) - 1) *
        ∑ i ∈ Finset.range xs.length, |xs.getD i 0 - y| := by
  rw [coeff_sum_eq]
  calc (∑ i ∈ Finset.range xs.length, ∑ j ∈ Finset.range i,
        (xs.getD i 0 - xs.getD j 0)) ≤
      ∑ i ∈ Finset.range xs.length, ∑ j ∈ Finset.range i,
        (|xs.getD i 0 - y| + |xs.getD j 0 - y|) := by
        refine Finset.sum_le_sum fun i _ => Finset.sum_le_sum fun j _ => ?_
        exact le_trans (le_abs_self _) (abs_pair_le y _ _)
    _ = ((xs.length : ℚ) - 1) *
        ∑ i ∈ Finset.range xs.length, |xs.getD i 0 - y| :=
        tri_sum (fun i => |xs.getD i 0 - y|) xs.length

/-- Non-negativity of the pwm kernel. -/
theorem pwmScore_nonneg (y : ℚ) (xs : List ℚ) : 0 ≤ pwmScore y xs := by
  rw [pwmScore]
  have hS : (0:ℚ) ≤ ∑ i ∈ Finset.range xs.length, |xs.getD i 0 - y| :=
    Finset.sum_nonneg fun i _ => abs_nonneg _
  rcases Nat.lt_or_ge xs.length 2 with h2 | h2
  · have hden : ((xs.length : ℚ)) * ((xs.length : ℚ) - 1) = 0 := by
      interval_cases h : xs.length <;> simp [h]
    rw [hden, div_zero, sub_zero]
    exact div_nonneg hS (Nat.cast_nonneg _)
  · have hn : (0:ℚ) < (xs.length : ℚ) := by
      have h0 : 0 < xs.length := by omega
      exact_mod_cast h0
    have hn1 : (0:ℚ) < (xs.length : ℚ) - 1 := by
      have h1 : (2:ℚ) ≤ (xs.length : ℚ) := by exact_mod_cast h2
      linarith
    have hT := pwmTerm_le y xs
    rw [sub_nonneg, div_le_div_iff₀ (by positivity) hn]
    nlinarith [hT, hS, hn, hn1]

/-- The pinball loss is nonnegative for levels in the unit interval. -/
theorem pinball_nonneg (y f q : ℚ) (h0 : 0 ≤ q) (h1 : q ≤ 1) :
    0 ≤ pinball y f q := by
  rw [pinball]
  split_ifs with hf
  · exact mul_nonneg h0 (by linarith)
  · push_neg at hf
    exact mul_nonneg (by linarith) (by linarith)

/-- Non-negativity of the quantile-decomposition kernel. -/
theorem qdScore_nonneg (y : ℚ) (xs : List ℚ) : 0 ≤ qdScore y xs := by
  rw [qdScore]
  refine mul_nonneg (div_nonneg (by norm_num) (Nat.cast_nonneg _)) ?_
  refine Finset.sum_nonneg fun i hi => ?_
  simp only [Finset.mem_range] at hi
  have hn : (0:ℚ) < (xs.length : ℚ) := by
    have h0 : 0 < xs.length := lt_of_le_of_lt (Nat.zero_le i) hi
    exact_mod_cast h0
  refine pinball_nonneg y _ _ (div_nonneg (by positivity) hn.le) ?_
  rw [div_le_one hn]
  have hcast : (i:ℚ) + 1 ≤ (xs.length : ℚ) := by exact_mod_cast hi
  linarith

/-- Consecutive elements of a sorted list are ordered. -/
theorem sorted_zip_tail (l : List ℚ) (h : l.Sorted (· ≤ ·)) :
    ∀ p ∈ l.zip l.tail, p.1 ≤ p.2 := by
  induction l with
  | nil =>
    intro p hp
    simp at hp
  | cons a t ih =>
    intro p hp
    cases t with
    | nil => simp at hp
    | cons b t' =>
      rw [List.tail_cons, List.zip_cons_cons] at hp
      rcases List.mem_cons.1 hp with rfl | hp'
      · exact (List.sorted_cons.1 h).1 b (List.mem_cons_self b t')
      · exact ih (List.sorted_cons.1 h).2 p hp'

/-- Non-negativity of the integral-form kernel on sorted ensembles. -/
theorem intScore_nonneg (y : ℚ) (xs : List ℚ) (h : xs.Sorted (· ≤ ·)) :
    0 ≤ intScore y xs := by
  rw [intScore]
  refine List.sum_nonneg fun v hv => ?_
  simp only [List.mem_map] at hv
  obtain ⟨p, hp, rfl⟩ := hv
  have hzs : (List.orderedInsert (· ≤ ·) y xs).Sorted (· ≤ ·) :=
    List.Sorted.orderedInsert y xs h
  have hle := sorted_zip_tail _ hzs p hp
  have h1 : (0:ℚ) ≤ p.2 - p.1 := by linarith
  exact mul_nonneg h1 (sq_nonneg _)

/-- The sum of absolute differences between two aligned lists is bounded by
the two absolute deviation sums to a common point. -/
theorem zipAbsSum_le (y : ℚ) : ∀ (u v : List ℚ),
    (List.zipWith (fun a b => |a - b|) u v).sum ≤
      (u.map (fun a => |a - y|)).sum + (v.map (fun b => |b - y|)).sum := by
  intro u
  induction u with
  | nil =>
    intro v
    rw [List.zipWith_nil_left, List.sum_nil, List.map_nil, List.sum_nil,
      zero_add]
    refine List.sum_nonneg fun x hx => ?_
    simp only [List.mem_map] at hx
    obtain ⟨b, _, rfl⟩ := hx
    exact abs_nonneg _
  | cons a u' ih =>
    intro v
    cases v with
    | nil =>
      rw [List.zipWith_nil_right, List.sum_nil, List.map_nil, List.sum_nil,
        add_zero]
      refine List.sum_nonneg fun x hx => ?_
      simp only [List.mem_map] at hx
      obtain ⟨b, _, rfl⟩ := hx
      exact abs_nonneg _
    | cons b v' =>
      simp only [List.zipWith_cons_cons, List.sum_cons, List.map_cons]
      have h1 := ih v'
      have h2 := abs_pair_le y a b
      linarith

/-- Rotating a list does not change a mapped sum. -/
theorem rotate_map_sum (f : ℚ → ℚ) (k : ℕ) (xs : List ℚ) :
    ((xs.rotate k).map f).sum = (xs.map f).sum :=
  ((xs.rotate_perm k).map f).sum_eq

/-- Non-negativity of the asymmetric-kernel estimators, for any cyclic
shift. -/
theorem akrScore_nonneg (k : ℕ) (y : ℚ) (xs : List ℚ) : 0 ≤ akrScore k y xs := by
  rw [akrScore]
  rcases Nat.eq_zero_or_pos xs.length with h0 | hpos
  · have hnil : xs = [] := List.length_eq_zero.1 h0
    subst hnil
    simp
  · have hn : (0:ℚ) < (xs.length : ℚ) := by exact_mod_cast hpos
    have hz := zipAbsSum_le y xs (xs.rotate k)
    rw [rotate_map_sum (fun a => |a - y|) k xs] at hz
    rw [listMapSum_eq (fun a => |a - y|) xs] at hz
    have hS : (0:ℚ) ≤ ∑ i ∈ Finset.range xs.length, |xs.getD i 0 - y| :=
      Finset.sum_nonneg fun i _ => abs_nonneg _
    rw [sub_nonneg, div_le_div_iff₀ (by positivity) hn]
    nlinarith [hz, hS, hn]

/-- Every element of a `zipWith` comes from a pair of elements of the two
lists. -/
theorem mem_zipWith {α β γ : Type} {f : α → β → γ} :
    ∀ {u : List α} {w : List β} {v : γ},
      v ∈ List.zipWith f u w → ∃ y ∈ u, ∃ r ∈ w, v = f y r := by
  intro u
  induction u with
  | nil =>
    intro w v hv
    simp at hv
  | cons a u' ih =>
    intro w v hv
    cases w with
    | nil => simp at hv
    | cons r w' =>
      rw [List.zipWith_cons_cons] at hv
      rcases List.mem_cons.1 hv with rfl | hv'
      · exact ⟨a, List.mem_cons_self a u', r, List.mem_cons_self r w', rfl⟩
      · obtain ⟨y, hy, row, hrow, rfl⟩ := ih hv'
        exact ⟨y, List.mem_cons_of_mem _ hy, row,
          List.mem_cons_of_mem _ hrow, rfl⟩

/-- Non-negativity of the kernel dispatch: every valid estimator produces a
nonnegative score, with sortedness needed only by the integral form. -/
theorem ensScore_nonneg (estimator : String)
    (he : estimator ∈ estimatorNames) (y : ℚ) (xs : List ℚ)
    (hs : estimator = "int" → xs.Sorted (· ≤ ·)) :
    0 ≤ ensScore estimator y xs := by
  simp only [estimatorNames, List.mem_cons, List.not_mem_nil, or_false] at he
  rcases he with rfl | rfl | rfl | rfl | rfl | rfl | rfl
  · exact nrgScore_nonneg y xs
  · exact fairScore_nonneg y xs
  · exact pwmScore_nonneg y xs
  · exact intScore_nonneg y xs (hs rfl)
  · exact qdScore_nonneg y xs
  · exact akrScore_nonneg 1 y xs
  · exact akrScore_nonneg _ y xs

/-- Non-negativity of `crps_ensemble`: under the caller contract that a
declared-sorted ensemble really is sorted along the ensemble axis, every
element of the returned array is nonnegative. -/
theorem crps_ensemble_nonneg (observations : List ℚ)
    (forecasts : List (List ℚ)) (axis : Int) (sorted_ensemble : Bool)
    (estimator : String) (he : estimator ∈ estimatorNames)
    (hsorted : sorted_ensemble = true →
      ∀ row ∈ moveaxisLast axis forecasts, row.Sorted (· ≤ ·)) :
    ∀ out, crps_ensemble observations forecasts axis sorted_ensemble
        estimator = Except.ok out → ∀ v ∈ out, 0 ≤ v := by
  intro out hout v hv
  rw [crps_ensemble, if_neg (not_not_intro he)] at hout
  injection hout with hout
  subst hout
  obtain ⟨y, _, row, hrow, rfl⟩ := mem_zipWith hv
  split_ifs at hrow with hc
  · simp only [List.mem_map] at hrow
    obtain ⟨r, _, rfl⟩ := hrow
    exact ensScore_nonneg estimator he y _
      (fun _ => List.sorted_insertionSort _ r)
  · rw [not_and_or, not_not, not_not] at hc
    rcases hc with hstrue | hnosort
    · exact ensScore_nonneg estimator he y row
        (fun _ => hsorted hstrue row hrow)
    · refine ensScore_nonneg estimator he y row (fun hint => ?_)
      rw [hint] at hnosort
      exact absurd hnosort (by decide)

/-- Non-negativity of the pinball kernel for levels in the unit interval. -/
theorem quantilePinball_nonneg (y : ℚ) (row alpha : List ℚ)
    (ha : ∀ a ∈ alpha, 0 ≤ a ∧ a ≤ 1) : 0 ≤ quantilePinball y row alpha := by
  rw [quantilePinball]
  refine mul_nonneg (div_nonneg (by norm_num) (Nat.cast_nonneg _))
    (List.sum_nonneg fun x hx => ?_)
  obtain ⟨f, _, q, hq, rfl⟩ := mem_zipWith hx
  exact pinball_nonneg y f q (ha q hq).1 (ha q hq).2

/-- Non-negativity of `crps_quantile` for levels inside the unit
interval. -/
theorem crps_quantile_nonneg (observations : List ℚ)
    (forecasts : List (List ℚ)) (alpha : List ℚ) (axis : Int)
    (ha : ∀ a ∈ alpha, 0 < a ∧ a < 1) :
    ∀ out, crps_quantile observations forecasts alpha axis = Except.ok out →
      ∀ v ∈ out, 0 ≤ v := by
  intro out hout v hv
  rw [crps_quantile] at hout
  split_ifs at hout with hdim
  injection hout with hout
  subst hout
  obtain ⟨y, _, row, _, rfl⟩ := mem_zipWith hv
  exact quantilePinball_nonneg y row alpha
    (fun a hha => ⟨(ha a hha).1.le, (ha a hha).2.le⟩)

/-- Every numeric entry of a returned Brier score array is nonnegative. -/
theorem brier_score_nonneg (forecasts observations : List FloatVal) :
    ∀ out, brier_score forecasts observations = Except.ok out →
      ∀ q : ℚ, FloatVal.num q ∈ out → 0 ≤ q := by
  intro out hout q hq
  rw [brier_score] at hout
  split_ifs at hout with h1 h2
  injection hout with hout
  subst hout
  obtain ⟨f, _, z, _, heq⟩ := mem_zipWith hq
  cases f with
  | nan => cases z <;> simp [FloatVal.sub, FloatVal.sq] at heq
  | num a =>
    cases z with
    | nan => simp [FloatVal.sub, FloatVal.sq] at heq
    | num b =>
      simp only [FloatVal.sub, FloatVal.sq, FloatVal.num.injEq] at heq
      rw [heq]
      exact sq_nonneg _

/-- C1: for every valid input (estimator in the closed set, a
declared-sorted ensemble actually sorted along the ensemble axis, quantile
levels inside the unit interval, positive scale and rate parameters,
observations in the lognormal support, numeric Brier entries), every element
of the array returned by `crps_ensemble`, `twcrps_ensemble`,
`crps_quantile`, `crps_normal`, `crps_lognormal`, `crps_logistic`,
`crps_exponential` and `brier_score` is nonnegative in exact arithmetic. -/
theorem C1_nonnegativity :
    (∀ (observations : List ℚ) (forecasts : List (List ℚ)) (axis : Int)
        (sorted_ensemble : Bool) (estimator : String),
      estimator ∈ estimatorNames →
      (sorted_ensemble = true →
        ∀ row ∈ moveaxisLast axis forecasts, row.Sorted (· ≤ ·)) →
      ∀ out, crps_ensemble observations forecasts axis sorted_ensemble
          estimator = Except.ok out → ∀ v ∈ out, 0 ≤ v) ∧
    (∀ (observations : List ℚ) (forecasts : List (List ℚ)) (v_func : ℚ → ℚ)
        (axis : Int) (sorted_ensemble : Bool) (estimator : String),
      estimator ∈ estimatorNames →
      (sorted_ensemble = true →
        ∀ row ∈ moveaxisLast axis (forecasts.map (List.map v_func)),
          row.Sorted (· ≤ ·)) →
      ∀ out, twcrps_ensemble observations forecasts v_func axis
          sorted_ensemble estimator = Except.ok out → ∀ v ∈ out, 0 ≤ v) ∧
    (∀ (observations : List ℚ) (forecasts : List (List ℚ)) (alpha : List ℚ)
        (axis : Int),
      (∀ a ∈ alpha, 0 < a ∧ a < 1) →
      ∀ out, crps_quantile observations forecasts alpha axis =
          Except.ok out → ∀ v ∈ out, 0 ≤ v) ∧
    (∀ y mu sigma : ℝ, 0 ≤ sigma → 0 ≤ crps_normal y mu sigma) ∧
    (∀ y mulog sigmalog : ℝ, 0 < y → 0 ≤ sigmalog →
      0 ≤ crps_lognormal y mulog sigmalog) ∧
    (∀ y mu sigma : ℝ, 0 ≤ sigma → 0 ≤ crps_logistic y mu sigma) ∧
    (∀ y rate : ℝ, 0 < rate → 0 ≤ crps_exponential y rate) ∧
    (∀ (forecasts observations : List FloatVal) out,
      brier_score forecasts observations = Except.ok out →
      ∀ q : ℚ, FloatVal.num q ∈ out → 0 ≤ q) :=
  ⟨fun observations forecasts axis s e he hs =>
      crps_ensemble_nonneg observations forecasts axis s e he hs,
    fun observations forecasts v_func axis s e he hs =>
      crps_ensemble_nonneg (observations.map v_func)
        (forecasts.map (List.map v_func)) axis s e he hs,
    fun observations forecasts alpha axis ha =>
      crps_quantile_nonneg observations forecasts alpha axis ha,
    crps_normal_nonneg,
    crps_lognormal_nonneg,
    crps_logistic_nonneg,
    crps_exponential_nonneg,
    fun forecasts observations out h =>
      brier_score_nonneg forecasts observations out h⟩

/-- Witness for C1: each component applied at a concrete input. -/
theorem C1_nonnegativity_witness :
    ("nrg" ∈ estimatorNames ∧ 0 ≤ nrgScore 1 [0, 2]) ∧
    ("fair" ∈ estimatorNames ∧ 0 ≤ fairScore 2 [1, 3]) ∧
    ((∀ a ∈ [(1:ℚ)/2], 0 < a ∧ a < 1) ∧
      0 ≤ quantilePinball 1 [0] [1/2]) ∧
    ((0:ℝ) ≤ 1 ∧ 0 ≤ crps_normal 0 0 1) ∧
    ((0:ℝ) < 1 ∧ (0:ℝ) ≤ 1 ∧ 0 ≤ crps_lognormal 1 0 1) ∧
    ((0:ℝ) ≤ 1 ∧ 0 ≤ crps_logistic 0 0 1) ∧
    ((0:ℝ) < 1 ∧ 0 ≤ crps_exponential 0 1) ∧
    (0 ≤ (1:ℚ)) :=
  ⟨⟨by decide,
      (C1_nonnegativity.1 [1] [[0, 2]] (-1) false "nrg" (by decide)
          (fun h => absurd h (by decide)) [ensScore "nrg" 1 [0, 2]] (by rfl))
        (ensScore "nrg" 1 [0, 2]) (List.mem_cons_self _ _)⟩,
    ⟨by decide,
      (C1_nonnegativity.2.1 [2] [[1, 3]] (fun x => x) (-1) false "fair"
          (by decide) (fun h => absurd h (by decide))
          [ensScore "fair" 2 [1, 3]] (by rfl))
        (ensScore "fair" 2 [1, 3]) (List.mem_cons_self _ _)⟩,
    ⟨by
        intro a ha
        rw [List.mem_singleton] at ha
        subst ha
        norm_num,
      (C1_nonnegativity.2.2.1 [1] [[0]] [1/2] (-1)
          (by
            intro a ha
            rw [List.mem_singleton] at ha
            subst ha
            norm_num)
          [quantilePinball 1 [0] [1/2]] (by rfl))
        (quantilePinball 1 [0] [1/2]) (List.mem_cons_self _ _)⟩,
    ⟨zero_le_one, C1_nonnegativity.2.2.2.1 0 0 1 zero_le_one⟩,
    ⟨one_pos, zero_le_one,
      C1_nonnegativity.2.2.2.2.1 1 0 1 one_pos zero_le_one⟩,
    ⟨zero_le_one, C1_nonnegativity.2.2.2.2.2.1 0 0 1 zero_le_one⟩,
    ⟨one_pos, C1_nonnegativity.2.2.2.2.2.2.1 0 1 one_pos⟩,
    (C1_nonnegativity.2.2.2.2.2.2.2 [FloatVal.num 1] [FloatVal.num 0]
        [FloatVal.num 1]
        (by norm_num [brier_score, FloatVal.lt, FloatVal.sub, FloatVal.sq,
          EPSILON]))
      1 (List.mem_cons_self _ _)⟩
